import Mathlib

/-!
Verification development for the `matrix-canonical-json` crate
(`src/lib.rs`, `src/serializer.rs`, `src/map_key.rs`, `src/error.rs`).

The crate serializes serde values to canonical JSON bytes.  We embed the
serde data model as the inductive `Value` (integer widths are erased: every
signed width renders through the same decimal formatter, likewise unsigned;
`f32` and `f64` are represented by one float constructor carrying the
classification and, for finite floats, the shortest-decimal rendering that
the `ryu`-based `write_f64` would emit).  Rust strings are `List Char`
(Unicode scalar values, exactly Rust's `char`), written as UTF-8 bytes.
Output is a `List Nat` of bytes; the `io::Write` sink of the crate is an
append-only byte vector, so the writer is modelled by returning the bytes
produced, with `Except Err` for the fallible paths.
-/

/-- `Error` from `src/error.rs`: `Custom(String)`, `IOError(io::Error)`,
`InvalidInput(String)`, `SizeLimit`. -/
inductive Err where
  | custom (msg : String) : Err
  | ioError : Err
  | invalidInput (msg : String) : Err
  | sizeLimit : Err
deriving DecidableEq, Repr

/-- Classification of a float value, as produced by `f64::classify` in
`Serializer::serialize_f64`, plus (for the finite case) the decimal
rendering the formatter's `write_f64` would produce for it. -/
inductive FClass where
  | nan : FClass
  | inf : FClass
  | finite (repr : List Char) : FClass
deriving DecidableEq, Repr

/-- The serde data model as the crate consumes it.  `vUnit` covers
`unit`, `None` and unit structs (all serialized via `serialize_unit`);
`vSeq` covers sequences, tuples and tuple structs (all delegated to
`serialize_seq`); signed/unsigned integer widths are erased to
`Int`/`Nat` as every width renders through the same decimal formatter. -/
inductive Value where
  | vBool (b : Bool) : Value
  | vInt (i : Int) : Value
  | vUInt (n : Nat) : Value
  | vF64 (f : FClass) : Value
  | vChar (c : Char) : Value
  | vStr (s : List Char) : Value
  | vBytes (bs : List Nat) : Value
  | vUnit : Value
  | vSome (v : Value) : Value
  | vUnitVariant (name : List Char) : Value
  | vNewtypeStruct (v : Value) : Value
  | vNewtypeVariant (name : List Char) (v : Value) : Value
  | vSeq (vs : List Value) : Value
  | vTupleVariant (name : List Char) (vs : List Value) : Value
  | vMap (entries : List (Value × Value)) : Value
  | vStruct (fields : List (List Char × Value)) : Value
  | vStructVariant (name : List Char) (fields : List (List Char × Value)) : Value

/-- UTF-8 encoding of one Unicode scalar value, the bytes `str::as_bytes`
exposes for one `char`. -/
def utf8Char (c : Char) : List Nat :=
  if c.toNat < 0x80 then [c.toNat]
  else if c.toNat < 0x800 then [0xC0 + c.toNat / 64, 0x80 + c.toNat % 64]
  else if c.toNat < 0x10000 then
    [0xE0 + c.toNat / 4096, 0x80 + c.toNat / 64 % 64, 0x80 + c.toNat % 64]
  else
    [0xF0 + c.toNat / 262144, 0x80 + c.toNat / 4096 % 64, 0x80 + c.toNat / 64 % 64,
      0x80 + c.toNat % 64]

/-- The UTF-8 bytes of a Rust `str`. -/
def utf8Str (s : List Char) : List Nat :=
  s.flatMap utf8Char

/-- The 256-entry `ESCAPE` lookup table of `src/serializer.rs`, as a
function from byte to escape class (`0` = not escaped, `b't'` etc. for the
short escapes, `b'u'` for `\u00XX`, `b'"'`, `b'\\'`). -/
def escClass (b : Nat) : Nat :=
  if b = 0x08 then 98
  else if b = 0x09 then 116
  else if b = 0x0A then 110
  else if b = 0x0C then 102
  else if b = 0x0D then 114
  else if b < 0x20 then 117
  else if b = 0x22 then 34
  else if b = 0x5C then 92
  else 0

/-- Lower-case hex digit, as in the formatter's escape writer. -/
def hexDigit (n : Nat) : Nat :=
  if n < 10 then 48 + n else 87 + n

/-- Modelled from the spec: the formatter module (`src/formatter.rs` is
declared by `lib.rs` but absent): `write_char_escape` emits `\b \t \n \f
\r \" \\` as two-byte escapes and `AsciiControl(byte)` as `\u00XX`
(spec section 4.2). -/
def charEscape (e b : Nat) : List Nat :=
  if e = 117 then [92, 117, 48, 48, hexDigit (b / 16), hexDigit (b % 16)]
  else [92, e]

/-- `format_escaped_str_contents` from `src/serializer.rs`: every byte is
looked up in `ESCAPE`; class-0 bytes pass through, others are replaced by
their escape sequence.  (The source accumulates unescaped runs and writes
them as fragments; the concatenated bytes are per-byte, as here.) -/
def escContents : List Nat → List Nat
  | [] => []
  | b :: rest =>
      (if escClass b = 0 then [b] else charEscape (escClass b) b) ++ escContents rest

/-- `format_escaped_str`: `begin_string`, contents, `end_string`. -/
def strLit (s : List Char) : List Nat :=
  [34] ++ escContents (utf8Str s) ++ [34]

/-- Minimal decimal rendering of a natural number (the formatter's
`write_u8` .. `write_u64` / `itoa` output, and `u128::to_string`). -/
def natDecBytes (n : Nat) : List Nat :=
  if h : n < 10 then [48 + n]
  else natDecBytes (n / 10) ++ [48 + n % 10]
decreasing_by exact Nat.div_lt_self (by omega) (by omega)

/-- Decimal rendering of a signed integer: sign iff negative, then
digits. -/
def intDecBytes (i : Int) : List Nat :=
  if i < 0 then 45 :: natDecBytes i.natAbs else natDecBytes i.natAbs

/-- Rust `Display` for the float that reached `CanonicalJson`'s
`serialize_f64` error message. -/
def fDisplay : FClass → String
  | .nan => "NaN"
  | .inf => "inf"
  | .finite r => String.mk r

/-- `serialize_bytes` element loop: `serialize_seq(Some(len))` then one
`serialize_element` per byte (each a `u8`, rendered as decimal), with
`begin_array_value` writing the comma before every non-first element. -/
def bytesLoop : List Nat → Bool → List Nat
  | [], _ => []
  | b :: rest, first =>
      (if first then [] else [44]) ++ natDecBytes b ++ bytesLoop rest false

mutual

/-- The streaming `Serializer` of `src/serializer.rs` (the path every
*nested* value takes): floats are emitted (`null` for NaN/∞, the decimal
rendering otherwise), sequences stream with `[ , ]`, maps and structs
stream with `{ , }` in input order (`Compound`), keys go through
`MapKeySerializer`, newtype/tuple/struct variants wrap in a single-member
object named by the variant. -/
def serEncode : Value → Except Err (List Nat)
  | .vBool b => .ok (if b then [116, 114, 117, 101] else [102, 97, 108, 115, 101])
  | .vInt i => .ok (intDecBytes i)
  | .vUInt n => .ok (natDecBytes n)
  | .vF64 .nan => .ok [110, 117, 108, 108]
  | .vF64 .inf => .ok [110, 117, 108, 108]
  | .vF64 (.finite r) => .ok (utf8Str r)
  | .vChar c => .ok (strLit [c])
  | .vStr s => .ok (strLit s)
  | .vBytes bs =>
      match bs with
      | [] => .ok [91, 93]
      | _ => .ok ([91] ++ bytesLoop bs true ++ [93])
  | .vUnit => .ok [110, 117, 108, 108]
  | .vSome v => serEncode v
  | .vUnitVariant name => .ok (strLit name)
  | .vNewtypeStruct v => serEncode v
  | .vNewtypeVariant name v => do
      let vb ← serEncode v
      .ok ([123] ++ strLit name ++ [58] ++ vb ++ [125])
  | .vSeq vs =>
      match vs with
      | [] => .ok [91, 93]
      | _ => do
          let body ← serSeqLoop vs true
          .ok ([91] ++ body ++ [93])
  | .vTupleVariant name vs =>
      match vs with
      | [] => .ok ([123] ++ strLit name ++ [58] ++ [91, 93] ++ [125])
      | _ => do
          let body ← serSeqLoop vs true
          .ok ([123] ++ strLit name ++ [58] ++ ([91] ++ body ++ [93]) ++ [125])
  | .vMap entries =>
      match entries with
      | [] => .ok [123, 125]
      | _ => do
          let body ← serMapLoop entries true
          .ok ([123] ++ body ++ [125])
  | .vStruct fields =>
      match fields with
      | [] => .ok [123, 125]
      | _ => do
          let body ← serFieldLoop fields true
          .ok ([123] ++ body ++ [125])
  | .vStructVariant name fields =>
      match fields with
      | [] => .ok ([123] ++ strLit name ++ [58] ++ [123, 125] ++ [125])
      | _ => do
          let body ← serFieldLoop fields true
          .ok ([123] ++ strLit name ++ [58] ++ ([123] ++ body ++ [125]) ++ [125])

/-- `Compound`'s `SerializeSeq` loop: `begin_array_value` writes `,`
before every non-first element, each element recurses into the same
`Serializer`. -/
def serSeqLoop : List Value → Bool → Except Err (List Nat)
  | [], _ => .ok []
  | v :: rest, first => do
      let vb ← serEncode v
      let rb ← serSeqLoop rest false
      .ok ((if first then [] else [44]) ++ vb ++ rb)

/-- `Compound`'s `SerializeMap` loop: per entry, `,` unless first, key via
`MapKeySerializer`, `:` from `begin_object_value`, then the value. -/
def serMapLoop : List (Value × Value) → Bool → Except Err (List Nat)
  | [], _ => .ok []
  | (k, v) :: rest, first => do
      let kb ← serKeyEnc k
      let vb ← serEncode v
      let rb ← serMapLoop rest false
      .ok ((if first then [] else [44]) ++ kb ++ [58] ++ vb ++ rb)

/-- `Compound`'s `SerializeStruct` loop: the `&'static str` field name
goes through `MapKeySerializer::serialize_str`, then the value. -/
def serFieldLoop : List (List Char × Value) → Bool → Except Err (List Nat)
  | [], _ => .ok []
  | (name, v) :: rest, first => do
      let vb ← serEncode v
      let rb ← serFieldLoop rest false
      .ok ((if first then [] else [44]) ++ strLit name ++ [58] ++ vb ++ rb)

/-- `MapKeySerializer` from `src/map_key.rs`: strings, chars and unit
variants render as quoted strings; every integer width delegates to the
plain `Serializer` integer path (bare decimal digits, no quotes); newtype
structs unwrap; every other shape returns
`Error::custom("key must be a string")`. -/
def serKeyEnc : Value → Except Err (List Nat)
  | .vStr s => .ok (strLit s)
  | .vChar c => .ok (strLit [c])
  | .vUnitVariant name => .ok (strLit name)
  | .vNewtypeStruct v => serKeyEnc v
  | .vInt i => .ok (intDecBytes i)
  | .vUInt n => .ok (natDecBytes n)
  | _ => .error (.custom "key must be a string")

end

/-- Byte-lexicographic comparison, the `Ord` of Rust `String` used by
`Vec::<String>::sort` in `MapKeySorted::end`. -/
def lexLe : List Nat → List Nat → Bool
  | [], _ => true
  | _ :: _, [] => false
  | a :: as', b :: bs' =>
      if a < b then true else if b < a then false else lexLe as' bs'

/-- `MapKeySorted::serialize_entry` for map entries: the key is rendered
into a fresh buffer via `MapKeySerializer`, `b':'` is pushed, the value is
rendered by a fresh plain `Serializer` (not `CanonicalJson`), giving one
`"key":value` fragment per entry. -/
def canFragsMap : List (Value × Value) → Except Err (List (List Nat))
  | [] => .ok []
  | (k, v) :: rest => do
      let kb ← serKeyEnc k
      let vb ← serEncode v
      let rb ← canFragsMap rest
      .ok ((kb ++ [58] ++ vb) :: rb)

/-- `MapKeySorted::serialize_field` for struct fields: the `&'static str`
name through `MapKeySerializer::serialize_str`, then as for map entries. -/
def canFragsStruct : List (List Char × Value) → Except Err (List (List Nat))
  | [] => .ok []
  | (name, v) :: rest => do
      let vb ← serEncode v
      let rb ← canFragsStruct rest
      .ok ((strLit name ++ [58] ++ vb) :: rb)

/-- Stable insertion of a fragment into an already sorted fragment list:
on ties the inserted (earlier) fragment stays in front, matching the
stability of `Vec::<String>::sort`. -/
def insertFrag (x : List Nat) : List (List Nat) → List (List Nat)
  | [] => [x]
  | y :: rest => if lexLe x y then x :: y :: rest else y :: insertFrag x rest

/-- `Vec::<String>::sort` on the fragment buffer: a stable sort by the
byte-lexicographic `Ord` of `String`, realized as insertion sort (any
stable sort computes the same list). -/
def sortFrags : List (List Nat) → List (List Nat)
  | [] => []
  | x :: rest => insertFrag x (sortFrags rest)

/-- `MapKeySorted::end`: sort the fragments (`Vec::<String>::sort`, byte
order), write `{`, the fragments joined by `,`, then `}`.  The write loop
with its "comma unless last" bookkeeping produces exactly the
interspersed concatenation. -/
def sortedObj (frags : List (List Nat)) : List Nat :=
  [123] ++ (List.intersperse [44] (sortFrags frags)).flatten ++ [125]

/-- The `CanonicalJson` serializer of `src/lib.rs` (the top-level entry):
floats are rejected with `InvalidInput`, maps and structs buffer their
member fragments and sort them (`MapKeySorted`), `Some`/newtype structs
recurse at the same level, and every other shape delegates to the inner
streaming `Serializer` (`self.ser`). -/
def canEncode : Value → Except Err (List Nat)
  | .vF64 f =>
      .error (.invalidInput ("f64 is not valid in canonical JSON found " ++ fDisplay f))
  | .vSome v => canEncode v
  | .vNewtypeStruct v => canEncode v
  | .vMap entries => do
      let frags ← canFragsMap entries
      .ok (sortedObj frags)
  | .vStruct fields => do
      let frags ← canFragsStruct fields
      .ok (sortedObj frags)
  | v => serEncode v

/-- `to_canonical_writer` from `src/lib.rs`: build a `CanonicalJson`
serializer over the writer and serialize the value; no size check. -/
def to_canonical_writer (v : Value) : Except Err (List Nat) :=
  canEncode v

/-- `to_canonical_vec` from `src/lib.rs`: encode into a fresh vector,
then fail with `Error::SizeLimit` iff the finished vector is longer than
65,535 bytes. -/
def to_canonical_vec (v : Value) : Except Err (List Nat) := do
  let w ← to_canonical_writer v
  if w.length > 65535 then .error .sizeLimit else .ok w

/-- `to_canonical_string`: `to_canonical_vec` followed by the (unchecked)
`String::from_utf8_unchecked` conversion, which keeps the bytes as they
are. -/
def to_canonical_string (v : Value) : Except Err (List Nat) :=
  to_canonical_vec v

deriving instance DecidableEq for Except

/-- Per-character well-formedness of the carried shortest-decimal float
rendering: `ryu` output is printable ASCII without space, quote or
backslash (digits, sign, point, exponent marker). -/
def fReprCharOk (c : Char) : Bool :=
  32 < c.toNat && c.toNat < 127 && c.toNat != 34 && c.toNat != 92

mutual

/-- Every finite float rendering carried inside the value is well formed
(`fReprCharOk` on each character). -/
def floatsWf : Value → Bool
  | .vF64 (.finite r) => r.all fReprCharOk
  | .vSome v => floatsWf v
  | .vNewtypeStruct v => floatsWf v
  | .vNewtypeVariant _ v => floatsWf v
  | .vSeq vs => floatsWfL vs
  | .vTupleVariant _ vs => floatsWfL vs
  | .vMap es => floatsWfE es
  | .vStruct fs => floatsWfF fs
  | .vStructVariant _ fs => floatsWfF fs
  | _ => true

def floatsWfL : List Value → Bool
  | [] => true
  | v :: rest => floatsWf v && floatsWfL rest

def floatsWfE : List (Value × Value) → Bool
  | [] => true
  | (k, v) :: rest => floatsWf k && floatsWf v && floatsWfE rest

def floatsWfF : List (List Char × Value) → Bool
  | [] => true
  | (_, v) :: rest => floatsWf v && floatsWfF rest

end

/-- State of the whitespace scanner: between tokens, inside a string
literal, or just after a backslash inside a string literal. -/
inductive WsSt where
  | out : WsSt
  | str : WsSt
  | esc : WsSt
deriving DecidableEq

/-- Whitespace byte (space, tab, line feed, carriage return). -/
def wsByte (b : Nat) : Bool :=
  b = 9 || b = 10 || b = 13 || b = 32

/-- Scanner that drops whitespace occurring outside string literals and
keeps everything else; returns the kept bytes and the final state.  A
quote toggles in/out of a string, a backslash inside a string shields the
next byte. -/
def runWs : WsSt → List Nat → List Nat × WsSt
  | s, [] => ([], s)
  | .out, b :: r =>
      if b = 34 then ((runWs .str r).1.cons b, (runWs .str r).2)
      else if wsByte b then runWs .out r
      else ((runWs .out r).1.cons b, (runWs .out r).2)
  | .str, b :: r =>
      if b = 34 then ((runWs .out r).1.cons b, (runWs .out r).2)
      else if b = 92 then ((runWs .esc r).1.cons b, (runWs .esc r).2)
      else ((runWs .str r).1.cons b, (runWs .str r).2)
  | .esc, b :: r => ((runWs .str r).1.cons b, (runWs .str r).2)

/-- Drop every whitespace byte that is not inside a string literal.  "The
output contains no insignificant whitespace" is `stripWs out = out`. -/
def stripWs (l : List Nat) : List Nat :=
  (runWs .out l).1

/-- A byte list is valid UTF-8 iff it is the encoding of some sequence of
Unicode scalar values. -/
def Utf8Valid (l : List Nat) : Prop :=
  ∃ cs : List Char, l = utf8Str cs

/-- Conjunction of the two output invariants of the claim: valid UTF-8
and no whitespace outside string content. -/
def GoodB (l : List Nat) : Prop :=
  Utf8Valid l ∧ runWs .out l = (l, .out)

/-- The escape rule exactly as the claim states it: bytes U+0000–U+001F,
`"` and `\` are escaped, backspace/tab/line feed/form feed/carriage
return by their short escapes, other control bytes as `\u00XX`, all other
bytes pass through. -/
def claimEscapeByte (b : Nat) : List Nat :=
  if b = 8 then [92, 98]
  else if b = 9 then [92, 116]
  else if b = 10 then [92, 110]
  else if b = 12 then [92, 102]
  else if b = 13 then [92, 114]
  else if b < 32 then [92, 117, 48, 48, hexDigit (b / 16), hexDigit (b % 16)]
  else if b = 34 then [92, 34]
  else if b = 92 then [92, 92]
  else [b]

/-- "Printable ASCII with no quote, backslash or control character", the
hypothesis of the claim's pass-through statement. -/
def PlainAscii (s : List Char) : Prop :=
  ∀ c ∈ s, 32 ≤ c.toNat ∧ c.toNat < 127 ∧ c.toNat ≠ 34 ∧ c.toNat ≠ 92

/-- The claim's enumeration of key shapes that do not produce a string
(boolean, float, byte sequence, unit/null, option, sequence, nested map,
struct, and the variant forms that carry payloads); a newtype struct is
as good or bad as its payload. -/
def nonStringKeyShape : Value → Bool
  | .vBool _ => true
  | .vF64 _ => true
  | .vBytes _ => true
  | .vUnit => true
  | .vSome _ => true
  | .vSeq _ => true
  | .vMap _ => true
  | .vStruct _ => true
  | .vNewtypeVariant _ _ => true
  | .vTupleVariant _ _ => true
  | .vStructVariant _ _ => true
  | .vNewtypeStruct v => nonStringKeyShape v
  | _ => false

/-- Whether an encode result is an `InvalidInput` error. -/
def errIsInvalidInput : Except Err (List Nat) → Bool
  | .error (.invalidInput _) => true
  | _ => false

theorem bind_ne_error {α β : Type} {e : Err} (x : Except Err α) (f : α → Except Err β)
    (hx : x ≠ Except.error e) (hf : ∀ a, f a ≠ Except.error e) :
    (x >>= f) ≠ Except.error e := by
  cases x <;> simp_all [Bind.bind, Except.bind]

mutual

theorem serEncode_ne_sizeLimit (v : Value) : serEncode v ≠ Except.error Err.sizeLimit := by
  cases v with
  | vBool b => simp [serEncode]
  | vInt i => simp [serEncode]
  | vUInt n => simp [serEncode]
  | vF64 f => cases f <;> simp [serEncode]
  | vChar c => simp [serEncode]
  | vStr s => simp [serEncode]
  | vBytes bs => cases bs <;> simp [serEncode]
  | vUnit => simp [serEncode]
  | vSome v => simpa [serEncode] using serEncode_ne_sizeLimit v
  | vUnitVariant name => simp [serEncode]
  | vNewtypeStruct v => simpa [serEncode] using serEncode_ne_sizeLimit v
  | vNewtypeVariant name v =>
      simpa [serEncode] using
        bind_ne_error (serEncode v) _ (serEncode_ne_sizeLimit v) (fun _ => by simp)
  | vSeq vs =>
      cases vs with
      | nil => simp [serEncode]
      | cons v rest =>
          simpa [serEncode] using
            bind_ne_error (serSeqLoop (v :: rest) true) _
              (serSeqLoop_ne_sizeLimit (v :: rest) true) (fun _ => by simp)
  | vTupleVariant name vs =>
      cases vs with
      | nil => simp [serEncode]
      | cons v rest =>
          simpa [serEncode] using
            bind_ne_error (serSeqLoop (v :: rest) true) _
              (serSeqLoop_ne_sizeLimit (v :: rest) true) (fun _ => by simp)
  | vMap es =>
      cases es with
      | nil => simp [serEncode]
      | cons e rest =>
          simpa [serEncode] using
            bind_ne_error (serMapLoop (e :: rest) true) _
              (serMapLoop_ne_sizeLimit (e :: rest) true) (fun _ => by simp)
  | vStruct fs =>
      cases fs with
      | nil => simp [serEncode]
      | cons f rest =>
          simpa [serEncode] using
            bind_ne_error (serFieldLoop (f :: rest) true) _
              (serFieldLoop_ne_sizeLimit (f :: rest) true) (fun _ => by simp)
  | vStructVariant name fs =>
      cases fs with
      | nil => simp [serEncode]
      | cons f rest =>
          simpa [serEncode] using
            bind_ne_error (serFieldLoop (f :: rest) true) _
              (serFieldLoop_ne_sizeLimit (f :: rest) true) (fun _ => by simp)

theorem serSeqLoop_ne_sizeLimit (vs : List Value) (first : Bool) :
    serSeqLoop vs first ≠ Except.error Err.sizeLimit := by
  cases vs with
  | nil => simp [serSeqLoop]
  | cons v rest =>
      simpa [serSeqLoop] using
        bind_ne_error (serEncode v) _ (serEncode_ne_sizeLimit v) (fun vb =>
          bind_ne_error (serSeqLoop rest false) _
            (serSeqLoop_ne_sizeLimit rest false) (fun _ => by simp))

theorem serMapLoop_ne_sizeLimit (es : List (Value × Value)) (first : Bool) :
    serMapLoop es first ≠ Except.error Err.sizeLimit := by
  cases es with
  | nil => simp [serMapLoop]
  | cons e rest =>
      simpa [serMapLoop] using
        bind_ne_error (serKeyEnc e.1) _ (serKeyEnc_ne_sizeLimit e.1) (fun kb =>
          bind_ne_error (serEncode e.2) _ (serEncode_ne_sizeLimit e.2) (fun vb =>
            bind_ne_error (serMapLoop rest false) _
              (serMapLoop_ne_sizeLimit rest false) (fun _ => by simp)))

theorem serFieldLoop_ne_sizeLimit (fs : List (List Char × Value)) (first : Bool) :
    serFieldLoop fs first ≠ Except.error Err.sizeLimit := by
  cases fs with
  | nil => simp [serFieldLoop]
  | cons f rest =>
      simpa [serFieldLoop] using
        bind_ne_error (serEncode f.2) _ (serEncode_ne_sizeLimit f.2) (fun vb =>
          bind_ne_error (serFieldLoop rest false) _
            (serFieldLoop_ne_sizeLimit rest false) (fun _ => by simp))

theorem serKeyEnc_ne_sizeLimit (v : Value) : serKeyEnc v ≠ Except.error Err.sizeLimit := by
  cases v with
  | vNewtypeStruct v => simpa [serKeyEnc] using serKeyEnc_ne_sizeLimit v
  | vStr s => simp [serKeyEnc]
  | vChar c => simp [serKeyEnc]
  | vUnitVariant name => simp [serKeyEnc]
  | vInt i => simp [serKeyEnc]
  | vUInt n => simp [serKeyEnc]
  | _ => simp [serKeyEnc]

end

theorem bind_ok_inv {α β : Type} (x : Except Err α) (f : α → Except Err β) (out : β)
    (h : (x >>= f) = .ok out) : ∃ a, x = .ok a ∧ f a = .ok out := by
  cases x <;> simp_all [Bind.bind, Except.bind]

theorem runWs_append (a : List Nat) : ∀ (s : WsSt) (b : List Nat),
    runWs s (a ++ b) =
      ((runWs s a).1 ++ (runWs (runWs s a).2 b).1, (runWs (runWs s a).2 b).2) := by
  induction a with
  | nil => intro s b; simp [runWs]
  | cons x r ih =>
      intro s b
      cases s with
      | out =>
          by_cases h34 : x = 34
          · simp [runWs, h34, ih]
          · by_cases hws : wsByte x
            · simp [runWs, h34, hws, ih]
            · simp [runWs, h34, hws, ih]
      | str =>
          by_cases h34 : x = 34
          · simp [runWs, h34, ih]
          · by_cases h92 : x = 92
            · simp [runWs, h34, h92, ih]
            · simp [runWs, h34, h92, ih]
      | esc => simp [runWs, ih]

theorem wsOk_append {a b : List Nat} (ha : runWs .out a = (a, .out))
    (hb : runWs .out b = (b, .out)) : runWs .out (a ++ b) = (a ++ b, .out) := by
  rw [runWs_append, ha]
  simp [hb]

theorem strOk_append {a b : List Nat} (ha : runWs .str a = (a, .str))
    (hb : runWs .str b = (b, .str)) : runWs .str (a ++ b) = (a ++ b, .str) := by
  rw [runWs_append, ha]
  simp [hb]

theorem wsOk_of_forall {l : List Nat} (h : ∀ b ∈ l, wsByte b = false ∧ b ≠ 34) :
    runWs .out l = (l, .out) := by
  induction l with
  | nil => simp [runWs]
  | cons x r ih =>
      have hx := h x (by simp)
      have hr := ih (fun b hb => h b (by simp [hb]))
      simp [runWs, hx.1, hx.2, hr]

theorem strOk_of_forall {l : List Nat} (h : ∀ b ∈ l, b ≠ 34 ∧ b ≠ 92) :
    runWs .str l = (l, .str) := by
  induction l with
  | nil => simp [runWs]
  | cons x r ih =>
      have hx := h x (by simp)
      have hr := ih (fun b hb => h b (by simp [hb]))
      simp [runWs, hx.1, hx.2, hr]

theorem escClass_eq_zero_ne {b : Nat} (h : escClass b = 0) : b ≠ 34 ∧ b ≠ 92 := by
  constructor <;> intro he <;> subst he <;> simp [escClass] at h

theorem escClass_117_lt {b : Nat} (h : escClass b = 117) : b < 32 := by
  unfold escClass at h
  split_ifs at h <;> omega

theorem hexDigit_facts {n : Nat} (h : n < 16) :
    hexDigit n < 128 ∧ hexDigit n ≠ 34 ∧ hexDigit n ≠ 92 ∧ wsByte (hexDigit n) = false := by
  unfold hexDigit wsByte
  split_ifs <;> refine ⟨by omega, by omega, by omega, ?_⟩ <;> simp <;> omega

theorem strOk_escByte (b : Nat) :
    runWs .str (if escClass b = 0 then [b] else charEscape (escClass b) b) =
      ((if escClass b = 0 then [b] else charEscape (escClass b) b), .str) := by
  by_cases h0 : escClass b = 0
  · have := escClass_eq_zero_ne h0
    simp [h0, runWs, this.1, this.2]
  · by_cases h117 : escClass b = 117
    · have hb := escClass_117_lt h117
      have h1 := hexDigit_facts (n := b / 16) (by omega)
      have h2 := hexDigit_facts (n := b % 16) (by omega)
      simp [h0, h117, charEscape, runWs, h1.2.1, h1.2.2.1, h2.2.1, h2.2.2.1]
    · simp [h0, charEscape, h117, runWs]

theorem strOk_escContents (l : List Nat) :
    runWs .str (escContents l) = (escContents l, .str) := by
  induction l with
  | nil => simp [escContents, runWs]
  | cons b r ih =>
      rw [escContents]
      exact strOk_append (strOk_escByte b) ih

theorem wsOk_strBody (l : List Nat) (hl : runWs .str l = (l, .str)) :
    runWs .out (34 :: (l ++ [34])) = (34 :: (l ++ [34]), .out) := by
  have htail : runWs .str (l ++ [34]) = (l ++ [34], .out) := by
    rw [runWs_append, hl]
    simp [runWs]
  simp [runWs, htail]

theorem wsOk_strLit (s : List Char) : runWs .out (strLit s) = (strLit s, .out) := by
  have := wsOk_strBody (escContents (utf8Str s)) (strOk_escContents _)
  simpa [strLit] using this

theorem utf8Valid_nil : Utf8Valid [] :=
  ⟨[], rfl⟩

theorem utf8Valid_append {a b : List Nat} (ha : Utf8Valid a) (hb : Utf8Valid b) :
    Utf8Valid (a ++ b) := by
  obtain ⟨cs, hcs⟩ := ha
  obtain ⟨ds, hds⟩ := hb
  exact ⟨cs ++ ds, by simp [hcs, hds, utf8Str, List.flatMap_append]⟩

theorem char_ofNat_toNat {b : Nat} (h : b < 0xD800) : (Char.ofNat b).toNat = b := by
  have hv : Nat.isValidChar b := Or.inl h
  rw [Char.ofNat, dif_pos hv]
  simp [Char.ofNatAux, Char.toNat, UInt32.toNat, BitVec.toNat_ofNatLt]

theorem utf8Char_ascii {c : Char} (h : c.toNat < 128) : utf8Char c = [c.toNat] := by
  simp [utf8Char]
  omega

theorem utf8Valid_of_ascii {l : List Nat} (h : ∀ b ∈ l, b < 128) : Utf8Valid l := by
  refine ⟨l.map (fun b => Char.ofNat b), ?_⟩
  induction l with
  | nil => simp [utf8Str]
  | cons x r ih =>
      have hx := h x (by simp)
      have hr := ih (fun b hb => h b (by simp [hb]))
      have htn : (Char.ofNat x).toNat = x := char_ofNat_toNat (by omega)
      simp only [List.map_cons, utf8Str, List.flatMap_cons]
      rw [utf8Char_ascii (by omega), htn]
      simpa [utf8Str] using hr

theorem escClass_of_ge128 {b : Nat} (h : 128 ≤ b) : escClass b = 0 := by
  unfold escClass
  split_ifs <;> omega

theorem escClass_lt_128 (b : Nat) : escClass b < 128 := by
  unfold escClass
  split_ifs <;> omega

theorem escContents_append (a b : List Nat) :
    escContents (a ++ b) = escContents a ++ escContents b := by
  induction a with
  | nil => simp [escContents]
  | cons x r ih => simp [escContents, ih]

theorem escContents_id_of {l : List Nat} (h : ∀ b ∈ l, escClass b = 0) :
    escContents l = l := by
  induction l with
  | nil => rfl
  | cons x r ih =>
      have hx := h x (by simp)
      have hr := ih (fun b hb => h b (by simp [hb]))
      simp [escContents, hx, hr]

theorem utf8Char_highbytes {c : Char} (h : 128 ≤ c.toNat) : ∀ b ∈ utf8Char c, 128 ≤ b := by
  intro b hb
  unfold utf8Char at hb
  split_ifs at hb <;> simp at hb <;> omega

theorem ascii_escByte {b : Nat} (h : b < 128) :
    ∀ x ∈ (if escClass b = 0 then [b] else charEscape (escClass b) b), x < 128 := by
  intro x hx
  by_cases h0 : escClass b = 0
  · simp [h0] at hx
    omega
  · by_cases h117 : escClass b = 117
    · have hb := escClass_117_lt h117
      have h1 := hexDigit_facts (n := b / 16) (by omega)
      have h2 := hexDigit_facts (n := b % 16) (by omega)
      simp [h0, h117, charEscape] at hx
      rcases hx with h | h | h | h | h | h <;> omega
    · have := escClass_lt_128 b
      simp [h0, charEscape, h117] at hx
      rcases hx with h | h <;> omega

theorem utf8Valid_escContents_utf8Str (s : List Char) :
    Utf8Valid (escContents (utf8Str s)) := by
  induction s with
  | nil => exact utf8Valid_nil
  | cons c r ih =>
      have hsplit : utf8Str (c :: r) = utf8Char c ++ utf8Str r := by
        simp [utf8Str]
      rw [hsplit, escContents_append]
      refine utf8Valid_append ?_ ih
      by_cases hc : c.toNat < 128
      · rw [utf8Char_ascii hc]
        rw [escContents]
        refine utf8Valid_of_ascii ?_
        intro x hx
        simp [escContents] at hx
        exact ascii_escByte hc x (by simpa using hx)
      · have hid : escContents (utf8Char c) = utf8Char c := by
          refine escContents_id_of ?_
          intro b hb
          exact escClass_of_ge128 (utf8Char_highbytes (by omega) b hb)
        rw [hid]
        exact ⟨[c], by simp [utf8Str]⟩

theorem goodB_nil : GoodB [] :=
  ⟨utf8Valid_nil, by simp [runWs]⟩

theorem goodB_append {a b : List Nat} (ha : GoodB a) (hb : GoodB b) : GoodB (a ++ b) :=
  ⟨utf8Valid_append ha.1 hb.1, wsOk_append ha.2 hb.2⟩

theorem goodB_token {l : List Nat} (h : ∀ b ∈ l, b < 128 ∧ wsByte b = false ∧ b ≠ 34) :
    GoodB l :=
  ⟨utf8Valid_of_ascii (fun b hb => (h b hb).1),
   wsOk_of_forall (fun b hb => ⟨(h b hb).2.1, (h b hb).2.2⟩)⟩

theorem goodB_strLit (s : List Char) : GoodB (strLit s) := by
  refine ⟨?_, wsOk_strLit s⟩
  refine utf8Valid_append (utf8Valid_append ?_ (utf8Valid_escContents_utf8Str s)) ?_
  · exact utf8Valid_of_ascii (by simp)
  · exact utf8Valid_of_ascii (by simp)

theorem natDecBytes_mem (n : Nat) : ∀ b ∈ natDecBytes n, 48 ≤ b ∧ b ≤ 57 := by
  induction n using Nat.strong_induction_on with
  | _ n ih =>
      intro b hb
      rw [natDecBytes] at hb
      by_cases h : n < 10
      · simp [h] at hb
        omega
      · simp [h] at hb
        rcases hb with hb | hb
        · exact ih (n / 10) (Nat.div_lt_self (by omega) (by omega)) b hb
        · have : n % 10 < 10 := Nat.mod_lt _ (by omega)
          omega

theorem goodB_natDecBytes (n : Nat) : GoodB (natDecBytes n) := by
  refine goodB_token ?_
  intro b hb
  have := natDecBytes_mem n b hb
  refine ⟨by omega, ?_, by omega⟩
  simp [wsByte]
  omega

theorem goodB_intDecBytes (i : Int) : GoodB (intDecBytes i) := by
  unfold intDecBytes
  split_ifs
  · have : (45 : Nat) :: natDecBytes i.natAbs = [45] ++ natDecBytes i.natAbs := by simp
    rw [this]
    refine goodB_append (goodB_token ?_) (goodB_natDecBytes _)
    intro b hb
    simp at hb
    subst hb
    refine ⟨by omega, by simp [wsByte], by omega⟩
  · exact goodB_natDecBytes _

theorem goodB_floatRepr {r : List Char} (h : ∀ c ∈ r, fReprCharOk c = true) :
    GoodB (utf8Str r) := by
  refine ⟨⟨r, rfl⟩, ?_⟩
  induction r with
  | nil => simp [utf8Str, runWs]
  | cons c cr ih =>
      have hc := h c (by simp)
      simp [fReprCharOk] at hc
      have hcr := ih (fun x hx => h x (by simp [hx]))
      have hsplit : utf8Str (c :: cr) = utf8Char c ++ utf8Str cr := by simp [utf8Str]
      rw [hsplit, utf8Char_ascii (by omega)]
      refine wsOk_append ?_ hcr
      refine wsOk_of_forall ?_
      intro b hb
      simp at hb
      subst hb
      constructor
      · simp [wsByte]
        omega
      · omega

theorem goodB_comma (first : Bool) : GoodB (if first then ([] : List Nat) else [44]) := by
  cases first
  · exact goodB_token (by decide)
  · exact goodB_nil

theorem goodB_bytesLoop (bs : List Nat) (first : Bool) : GoodB (bytesLoop bs first) := by
  induction bs generalizing first with
  | nil => exact goodB_nil
  | cons b r ih =>
      rw [bytesLoop]
      exact goodB_append (goodB_append (goodB_comma first) (goodB_natDecBytes b)) (ih false)

mutual

theorem serEncode_good (v : Value) (hw : floatsWf v = true) :
    ∀ out, serEncode v = Except.ok out → GoodB out := by
  cases v with
  | vBool b =>
      intro out h
      cases b <;> simp [serEncode] at h <;> subst h <;> exact goodB_token (by decide)
  | vInt i =>
      intro out h
      simp [serEncode] at h
      subst h
      exact goodB_intDecBytes i
  | vUInt n =>
      intro out h
      simp [serEncode] at h
      subst h
      exact goodB_natDecBytes n
  | vF64 f =>
      intro out h
      cases f with
      | nan =>
          simp [serEncode] at h
          subst h
          exact goodB_token (by decide)
      | inf =>
          simp [serEncode] at h
          subst h
          exact goodB_token (by decide)
      | finite r =>
          simp [serEncode] at h
          subst h
          simp only [floatsWf, List.all_eq_true] at hw
          exact goodB_floatRepr hw
  | vChar c =>
      intro out h
      simp [serEncode] at h
      subst h
      exact goodB_strLit [c]
  | vStr s =>
      intro out h
      simp [serEncode] at h
      subst h
      exact goodB_strLit s
  | vBytes bs =>
      intro out h
      cases bs with
      | nil =>
          simp [serEncode] at h
          subst h
          exact goodB_token (by decide)
      | cons b r =>
          simp only [serEncode, Except.ok.injEq] at h
          refine h ▸ ?_
          exact goodB_append (goodB_append (goodB_token (by decide))
            (goodB_bytesLoop (b :: r) true)) (goodB_token (by decide))
  | vUnit =>
      intro out h
      simp [serEncode] at h
      subst h
      exact goodB_token (by decide)
  | vSome v =>
      intro out h
      simp only [floatsWf] at hw
      exact serEncode_good v hw out (by simpa [serEncode] using h)
  | vUnitVariant name =>
      intro out h
      simp [serEncode] at h
      subst h
      exact goodB_strLit name
  | vNewtypeStruct v =>
      intro out h
      simp only [floatsWf] at hw
      exact serEncode_good v hw out (by simpa [serEncode] using h)
  | vNewtypeVariant name v =>
      intro out h
      simp only [serEncode] at h
      obtain ⟨vb, hvb, hp⟩ := bind_ok_inv _ _ _ h
      simp only [Except.ok.injEq] at hp
      simp only [floatsWf] at hw
      refine hp ▸ ?_
      exact goodB_append (goodB_append (goodB_append (goodB_append
        (goodB_token (by decide)) (goodB_strLit name)) (goodB_token (by decide)))
        (serEncode_good v hw vb hvb)) (goodB_token (by decide))
  | vSeq vs =>
      intro out h
      cases vs with
      | nil =>
          simp [serEncode] at h
          subst h
          exact goodB_token (by decide)
      | cons v rest =>
          simp only [serEncode] at h
          obtain ⟨body, hb, hp⟩ := bind_ok_inv _ _ _ h
          simp only [Except.ok.injEq] at hp
          simp only [floatsWf] at hw
          refine hp ▸ ?_
          exact goodB_append (goodB_append (goodB_token (by decide))
            (serSeqLoop_good (v :: rest) true hw body hb)) (goodB_token (by decide))
  | vTupleVariant name vs =>
      intro out h
      cases vs with
      | nil =>
          simp only [serEncode, Except.ok.injEq] at h
          refine h ▸ ?_
          exact goodB_append (goodB_append (goodB_append (goodB_append
            (goodB_token (by decide)) (goodB_strLit name)) (goodB_token (by decide)))
            (goodB_token (by decide))) (goodB_token (by decide))
      | cons v rest =>
          simp only [serEncode] at h
          obtain ⟨body, hb, hp⟩ := bind_ok_inv _ _ _ h
          simp only [Except.ok.injEq] at hp
          simp only [floatsWf] at hw
          refine hp ▸ ?_
          exact goodB_append (goodB_append (goodB_append (goodB_append
            (goodB_token (by decide)) (goodB_strLit name)) (goodB_token (by decide)))
            (goodB_append (goodB_append (goodB_token (by decide))
              (serSeqLoop_good (v :: rest) true hw body hb)) (goodB_token (by decide))))
            (goodB_token (by decide))
  | vMap es =>
      intro out h
      cases es with
      | nil =>
          simp [serEncode] at h
          subst h
          exact goodB_token (by decide)
      | cons e rest =>
          simp only [serEncode] at h
          obtain ⟨body, hb, hp⟩ := bind_ok_inv _ _ _ h
          simp only [Except.ok.injEq] at hp
          simp only [floatsWf] at hw
          refine hp ▸ ?_
          exact goodB_append (goodB_append (goodB_token (by decide))
            (serMapLoop_good (e :: rest) true hw body hb)) (goodB_token (by decide))
  | vStruct fs =>
      intro out h
      cases fs with
      | nil =>
          simp [serEncode] at h
          subst h
          exact goodB_token (by decide)
      | cons f rest =>
          simp only [serEncode] at h
          obtain ⟨body, hb, hp⟩ := bind_ok_inv _ _ _ h
          simp only [Except.ok.injEq] at hp
          simp only [floatsWf] at hw
          refine hp ▸ ?_
          exact goodB_append (goodB_append (goodB_token (by decide))
            (serFieldLoop_good (f :: rest) true hw body hb)) (goodB_token (by decide))
  | vStructVariant name fs =>
      intro out h
      cases fs with
      | nil =>
          simp only [serEncode, Except.ok.injEq] at h
          refine h ▸ ?_
          exact goodB_append (goodB_append (goodB_append (goodB_append
            (goodB_token (by decide)) (goodB_strLit name)) (goodB_token (by decide)))
            (goodB_token (by decide))) (goodB_token (by decide))
      | cons f rest =>
          simp only [serEncode] at h
          obtain ⟨body, hb, hp⟩ := bind_ok_inv _ _ _ h
          simp only [Except.ok.injEq] at hp
          simp only [floatsWf] at hw
          refine hp ▸ ?_
          exact goodB_append (goodB_append (goodB_append (goodB_append
            (goodB_token (by decide)) (goodB_strLit name)) (goodB_token (by decide)))
            (goodB_append (goodB_append (goodB_token (by decide))
              (serFieldLoop_good (f :: rest) true hw body hb)) (goodB_token (by decide))))
            (goodB_token (by decide))

theorem serSeqLoop_good (vs : List Value) (first : Bool) (hw : floatsWfL vs = true) :
    ∀ out, serSeqLoop vs first = Except.ok out → GoodB out := by
  cases vs with
  | nil =>
      intro out h
      simp [serSeqLoop] at h
      subst h
      exact goodB_nil
  | cons v rest =>
      intro out h
      simp only [serSeqLoop] at h
      obtain ⟨vb, hvb, h2⟩ := bind_ok_inv _ _ _ h
      obtain ⟨rb, hrb, hp⟩ := bind_ok_inv _ _ _ h2
      simp only [Except.ok.injEq] at hp
      simp only [floatsWfL, Bool.and_eq_true] at hw
      refine hp ▸ ?_
      exact goodB_append (goodB_append (goodB_comma first)
        (serEncode_good v hw.1 vb hvb)) (serSeqLoop_good rest false hw.2 rb hrb)

theorem serMapLoop_good (es : List (Value × Value)) (first : Bool)
    (hw : floatsWfE es = true) :
    ∀ out, serMapLoop es first = Except.ok out → GoodB out := by
  cases es with
  | nil =>
      intro out h
      simp [serMapLoop] at h
      subst h
      exact goodB_nil
  | cons e rest =>
      intro out h
      obtain ⟨k, v⟩ := e
      simp only [serMapLoop] at h
      obtain ⟨kb, hkb, h2⟩ := bind_ok_inv _ _ _ h
      obtain ⟨vb, hvb, h3⟩ := bind_ok_inv _ _ _ h2
      obtain ⟨rb, hrb, hp⟩ := bind_ok_inv _ _ _ h3
      simp only [Except.ok.injEq] at hp
      simp only [floatsWfE, Bool.and_eq_true] at hw
      refine hp ▸ ?_
      exact goodB_append (goodB_append (goodB_append (goodB_append (goodB_comma first)
        (serKeyEnc_good k kb hkb)) (goodB_token (by decide)))
        (serEncode_good v hw.1.2 vb hvb)) (serMapLoop_good rest false hw.2 rb hrb)

theorem serFieldLoop_good (fs : List (List Char × Value)) (first : Bool)
    (hw : floatsWfF fs = true) :
    ∀ out, serFieldLoop fs first = Except.ok out → GoodB out := by
  cases fs with
  | nil =>
      intro out h
      simp [serFieldLoop] at h
      subst h
      exact goodB_nil
  | cons f rest =>
      intro out h
      obtain ⟨name, v⟩ := f
      simp only [serFieldLoop] at h
      obtain ⟨vb, hvb, h2⟩ := bind_ok_inv _ _ _ h
      obtain ⟨rb, hrb, hp⟩ := bind_ok_inv _ _ _ h2
      simp only [Except.ok.injEq] at hp
      simp only [floatsWfF, Bool.and_eq_true] at hw
      refine hp ▸ ?_
      exact goodB_append (goodB_append (goodB_append (goodB_append (goodB_comma first)
        (goodB_strLit name)) (goodB_token (by decide)))
        (serEncode_good v hw.1 vb hvb)) (serFieldLoop_good rest false hw.2 rb hrb)

theorem serKeyEnc_good (v : Value) :
    ∀ out, serKeyEnc v = Except.ok out → GoodB out := by
  cases v with
  | vStr s =>
      intro out h
      simp [serKeyEnc] at h
      subst h
      exact goodB_strLit s
  | vChar c =>
      intro out h
      simp [serKeyEnc] at h
      subst h
      exact goodB_strLit [c]
  | vUnitVariant name =>
      intro out h
      simp [serKeyEnc] at h
      subst h
      exact goodB_strLit name
  | vNewtypeStruct v =>
      intro out h
      exact serKeyEnc_good v out (by simpa [serKeyEnc] using h)
  | vInt i =>
      intro out h
      simp [serKeyEnc] at h
      subst h
      exact goodB_intDecBytes i
  | vUInt n =>
      intro out h
      simp [serKeyEnc] at h
      subst h
      exact goodB_natDecBytes n
  | _ =>
      intro out h
      simp [serKeyEnc] at h

end

theorem mem_insertFrag {x y : List Nat} {l : List (List Nat)} (h : x ∈ insertFrag y l) :
    x = y ∨ x ∈ l := by
  induction l with
  | nil =>
      simp [insertFrag] at h
      exact Or.inl h
  | cons z r ih =>
      rw [insertFrag] at h
      split_ifs at h
      · simpa using h
      · simp at h
        rcases h with h | h
        · exact Or.inr (by simp [h])
        · rcases ih h with h | h
          · exact Or.inl h
          · exact Or.inr (by simp [h])

theorem mem_sortFrags {x : List Nat} {l : List (List Nat)} (h : x ∈ sortFrags l) :
    x ∈ l := by
  induction l with
  | nil => simp [sortFrags] at h
  | cons y r ih =>
      rw [sortFrags] at h
      rcases mem_insertFrag h with h | h
      · simp [h]
      · simp [ih h]

theorem canFragsMap_good {es : List (Value × Value)} {frags : List (List Nat)}
    (hw : floatsWfE es = true) (h : canFragsMap es = Except.ok frags) :
    ∀ f ∈ frags, GoodB f := by
  induction es generalizing frags with
  | nil =>
      simp [canFragsMap] at h
      subst h
      simp
  | cons e rest ih =>
      obtain ⟨k, v⟩ := e
      simp only [canFragsMap] at h
      obtain ⟨kb, hkb, h2⟩ := bind_ok_inv _ _ _ h
      obtain ⟨vb, hvb, h3⟩ := bind_ok_inv _ _ _ h2
      obtain ⟨rb, hrb, hp⟩ := bind_ok_inv _ _ _ h3
      simp only [Except.ok.injEq] at hp
      simp only [floatsWfE, Bool.and_eq_true] at hw
      intro f hf
      rw [← hp, List.mem_cons] at hf
      rcases hf with hf | hf
      · subst hf
        exact goodB_append (goodB_append (serKeyEnc_good k kb hkb)
          (goodB_token (by decide))) (serEncode_good v hw.1.2 vb hvb)
      · exact ih hw.2 hrb f hf

theorem canFragsStruct_good {fs : List (List Char × Value)} {frags : List (List Nat)}
    (hw : floatsWfF fs = true) (h : canFragsStruct fs = Except.ok frags) :
    ∀ f ∈ frags, GoodB f := by
  induction fs generalizing frags with
  | nil =>
      simp [canFragsStruct] at h
      subst h
      simp
  | cons e rest ih =>
      obtain ⟨name, v⟩ := e
      simp only [canFragsStruct] at h
      obtain ⟨vb, hvb, h2⟩ := bind_ok_inv _ _ _ h
      obtain ⟨rb, hrb, hp⟩ := bind_ok_inv _ _ _ h2
      simp only [Except.ok.injEq] at hp
      simp only [floatsWfF, Bool.and_eq_true] at hw
      intro f hf
      rw [← hp, List.mem_cons] at hf
      rcases hf with hf | hf
      · subst hf
        exact goodB_append (goodB_append (goodB_strLit name)
          (goodB_token (by decide))) (serEncode_good v hw.1 vb hvb)
      · exact ih hw.2 hrb f hf

theorem goodB_joinFrags {l : List (List Nat)} (h : ∀ f ∈ l, GoodB f) :
    GoodB (List.intersperse [44] l).flatten := by
  induction l with
  | nil => exact goodB_nil
  | cons x r ih =>
      cases r with
      | nil => simpa [List.intersperse] using h x (by simp)
      | cons y r2 =>
          rw [List.intersperse_cons_cons, List.flatten_cons, List.flatten_cons]
          refine goodB_append (h x (by simp)) (goodB_append (goodB_token (by decide)) ?_)
          have := ih (fun f hf => h f (by simp at hf ⊢; tauto))
          simpa [List.intersperse] using this

theorem goodB_sortedObj {frags : List (List Nat)} (h : ∀ f ∈ frags, GoodB f) :
    GoodB (sortedObj frags) := by
  unfold sortedObj
  exact goodB_append (goodB_append (goodB_token (by decide))
    (goodB_joinFrags (fun f hf => h f (mem_sortFrags hf)))) (goodB_token (by decide))

theorem canEncode_good (v : Value) (hw : floatsWf v = true) :
    ∀ out, canEncode v = Except.ok out → GoodB out := by
  cases v with
  | vSome v =>
      intro out h
      simp only [floatsWf] at hw
      exact canEncode_good v hw out (by simpa [canEncode] using h)
  | vNewtypeStruct v =>
      intro out h
      simp only [floatsWf] at hw
      exact canEncode_good v hw out (by simpa [canEncode] using h)
  | vF64 f =>
      intro out h
      simp [canEncode] at h
  | vMap es =>
      intro out h
      simp only [canEncode] at h
      obtain ⟨frags, hfr, hp⟩ := bind_ok_inv _ _ _ h
      simp only [Except.ok.injEq] at hp
      simp only [floatsWf] at hw
      exact hp ▸ goodB_sortedObj (canFragsMap_good hw hfr)
  | vStruct fs =>
      intro out h
      simp only [canEncode] at h
      obtain ⟨frags, hfr, hp⟩ := bind_ok_inv _ _ _ h
      simp only [Except.ok.injEq] at hp
      simp only [floatsWf] at hw
      exact hp ▸ goodB_sortedObj (canFragsStruct_good hw hfr)
  | vBool b =>
      intro out h
      exact serEncode_good (.vBool b) hw out (by simpa [canEncode] using h)
  | vInt i =>
      intro out h
      exact serEncode_good (.vInt i) hw out (by simpa [canEncode] using h)
  | vUInt n =>
      intro out h
      exact serEncode_good (.vUInt n) hw out (by simpa [canEncode] using h)
  | vChar c =>
      intro out h
      exact serEncode_good (.vChar c) hw out (by simpa [canEncode] using h)
  | vStr s =>
      intro out h
      exact serEncode_good (.vStr s) hw out (by simpa [canEncode] using h)
  | vBytes bs =>
      intro out h
      exact serEncode_good (.vBytes bs) hw out (by simpa [canEncode] using h)
  | vUnit =>
      intro out h
      exact serEncode_good .vUnit hw out (by simpa [canEncode] using h)
  | vUnitVariant name =>
      intro out h
      exact serEncode_good (.vUnitVariant name) hw out (by simpa [canEncode] using h)
  | vNewtypeVariant name v =>
      intro out h
      exact serEncode_good (.vNewtypeVariant name v) hw out (by simpa [canEncode] using h)
  | vSeq vs =>
      intro out h
      exact serEncode_good (.vSeq vs) hw out (by simpa [canEncode] using h)
  | vTupleVariant name vs =>
      intro out h
      exact serEncode_good (.vTupleVariant name vs) hw out (by simpa [canEncode] using h)
  | vStructVariant name fs =>
      intro out h
      exact serEncode_good (.vStructVariant name fs) hw out (by simpa [canEncode] using h)

theorem canFragsMap_ne_sizeLimit (es : List (Value × Value)) :
    canFragsMap es ≠ Except.error Err.sizeLimit := by
  induction es with
  | nil => simp [canFragsMap]
  | cons e rest ih =>
      simpa [canFragsMap] using
        bind_ne_error (serKeyEnc e.1) _ (serKeyEnc_ne_sizeLimit e.1) (fun kb =>
          bind_ne_error (serEncode e.2) _ (serEncode_ne_sizeLimit e.2) (fun vb =>
            bind_ne_error (canFragsMap rest) _ ih (fun _ => by simp)))

theorem canFragsStruct_ne_sizeLimit (fs : List (List Char × Value)) :
    canFragsStruct fs ≠ Except.error Err.sizeLimit := by
  induction fs with
  | nil => simp [canFragsStruct]
  | cons f rest ih =>
      simpa [canFragsStruct] using
        bind_ne_error (serEncode f.2) _ (serEncode_ne_sizeLimit f.2) (fun vb =>
          bind_ne_error (canFragsStruct rest) _ ih (fun _ => by simp))

theorem canEncode_ne_sizeLimit (v : Value) : canEncode v ≠ Except.error Err.sizeLimit := by
  cases v with
  | vSome v => simpa [canEncode] using canEncode_ne_sizeLimit v
  | vNewtypeStruct v => simpa [canEncode] using canEncode_ne_sizeLimit v
  | vF64 f => simp [canEncode]
  | vMap es =>
      simpa [canEncode] using
        bind_ne_error (canFragsMap es) _ (canFragsMap_ne_sizeLimit es) (fun _ => by simp)
  | vStruct fs =>
      simpa [canEncode] using
        bind_ne_error (canFragsStruct fs) _ (canFragsStruct_ne_sizeLimit fs) (fun _ => by simp)
  | vBool b => simpa [canEncode] using serEncode_ne_sizeLimit (.vBool b)
  | vInt i => simpa [canEncode] using serEncode_ne_sizeLimit (.vInt i)
  | vUInt n => simpa [canEncode] using serEncode_ne_sizeLimit (.vUInt n)
  | vChar c => simpa [canEncode] using serEncode_ne_sizeLimit (.vChar c)
  | vStr s => simpa [canEncode] using serEncode_ne_sizeLimit (.vStr s)
  | vBytes bs => simpa [canEncode] using serEncode_ne_sizeLimit (.vBytes bs)
  | vUnit => simpa [canEncode] using serEncode_ne_sizeLimit .vUnit
  | vUnitVariant name => simpa [canEncode] using serEncode_ne_sizeLimit (.vUnitVariant name)
  | vNewtypeVariant name v =>
      simpa [canEncode] using serEncode_ne_sizeLimit (.vNewtypeVariant name v)
  | vSeq vs => simpa [canEncode] using serEncode_ne_sizeLimit (.vSeq vs)
  | vTupleVariant name vs =>
      simpa [canEncode] using serEncode_ne_sizeLimit (.vTupleVariant name vs)
  | vStructVariant name fs =>
      simpa [canEncode] using serEncode_ne_sizeLimit (.vStructVariant name fs)

example :
    to_canonical_string (.vMap [(.vStr "b".toList, .vStr "2".toList),
      (.vStr "a".toList, .vStr "1".toList)]) =
    .ok (utf8Str "\x7b\x22a\x22:\x221\x22,\x22b\x22:\x222\x22\x7d".toList) := by
  simp [to_canonical_string, to_canonical_vec, to_canonical_writer, canEncode,
    canFragsMap, serEncode, serKeyEnc, strLit, escContents, escClass, utf8Str,
    utf8Char, sortedObj, sortFrags, insertFrag, lexLe, natDecBytes, Bind.bind,
    Except.bind]

example : to_canonical_string (.vMap []) = .ok [123, 125] := by
  simp [to_canonical_string, to_canonical_vec, to_canonical_writer, canEncode,
    canFragsMap, sortedObj, sortFrags, Bind.bind, Except.bind]

example :
    to_canonical_string (.vStruct [("z".toList, .vUInt 10), ("y".toList, .vUInt 23),
      ("x".toList, .vUInt 1)]) =
    .ok (utf8Str "\x7b\x22x\x22:1,\x22y\x22:23,\x22z\x22:10\x7d".toList) := by
  simp [to_canonical_string, to_canonical_vec, to_canonical_writer, canEncode,
    canFragsStruct, serEncode, serKeyEnc, strLit, escContents, escClass, utf8Str,
    utf8Char, sortedObj, sortFrags, insertFrag, lexLe, natDecBytes, Bind.bind,
    Except.bind]

theorem escByte_eq_claim (b : Nat) :
    (if escClass b = 0 then [b] else charEscape (escClass b) b) = claimEscapeByte b := by
  by_cases h8 : b = 8
  · subst h8; rfl
  by_cases h9 : b = 9
  · subst h9; rfl
  by_cases h10 : b = 10
  · subst h10; rfl
  by_cases h12 : b = 12
  · subst h12; rfl
  by_cases h13 : b = 13
  · subst h13; rfl
  by_cases h32 : b < 32
  · have hc : escClass b = 117 := by
      unfold escClass
      simp [h8, h9, h10, h12, h13, h32]
    rw [hc]
    unfold claimEscapeByte charEscape
    simp [h8, h9, h10, h12, h13, h32]
  by_cases h34 : b = 34
  · subst h34; rfl
  by_cases h92 : b = 92
  · subst h92; rfl
  · have hc : escClass b = 0 := by
      unfold escClass
      simp [h8, h9, h10, h12, h13, h32, h34, h92]
    rw [hc]
    unfold claimEscapeByte
    simp [h8, h9, h10, h12, h13, h32, h34, h92]

theorem escContents_eq_claim (l : List Nat) :
    escContents l = l.flatMap claimEscapeByte := by
  induction l with
  | nil => rfl
  | cons b r ih =>
      rw [escContents, List.flatMap_cons, ih, escByte_eq_claim]

theorem escClass_plain {x : Nat} (h32 : 32 ≤ x) (h127 : x < 127) (h34 : x ≠ 34)
    (h92 : x ≠ 92) : escClass x = 0 := by
  unfold escClass
  split_ifs <;> omega

theorem escContents_plainAscii {s : List Char} (h : PlainAscii s) :
    escContents (utf8Str s) = s.map Char.toNat := by
  induction s with
  | nil => rfl
  | cons c r ih =>
      have hc := h c (by simp)
      have hr := ih (fun x hx => h x (by simp [hx]))
      have hsplit : utf8Str (c :: r) = utf8Char c ++ utf8Str r := by simp [utf8Str]
      rw [hsplit, escContents_append, utf8Char_ascii (by omega), List.map_cons, ← hr]
      rw [escContents]
      simp [escClass_plain hc.1 hc.2.1 hc.2.2.1 hc.2.2.2, escContents]

theorem escContents_replicate_a (n : Nat) :
    escContents (utf8Str (List.replicate n 'a')) = List.replicate n 97 := by
  induction n with
  | zero => rfl
  | succ n ih =>
      rw [List.replicate_succ]
      have hsplit : utf8Str ('a' :: List.replicate n 'a') =
          utf8Char 'a' ++ utf8Str (List.replicate n 'a') := by simp [utf8Str]
      rw [hsplit, escContents_append, ih]
      simp [utf8Char, escContents, escClass, List.replicate_succ]

theorem joinComma_eq_bytesLoop (r : List Nat) : ∀ b,
    (List.intersperse [44] (natDecBytes b :: r.map natDecBytes)).flatten =
      natDecBytes b ++ bytesLoop r false := by
  induction r with
  | nil => intro b; simp [List.intersperse, bytesLoop]
  | cons c r2 ih =>
      intro b
      rw [List.map_cons, List.intersperse_cons_cons, List.flatten_cons, List.flatten_cons]
      rw [bytesLoop, ih c]
      simp

theorem serKeyEnc_bad (k : Value) (h : nonStringKeyShape k = true) :
    serKeyEnc k = Except.error (Err.custom "key must be a string") := by
  cases k with
  | vNewtypeStruct v =>
      simp only [nonStringKeyShape] at h
      simpa [serKeyEnc] using serKeyEnc_bad v h
  | vStr s => simp [nonStringKeyShape] at h
  | vChar c => simp [nonStringKeyShape] at h
  | vUnitVariant name => simp [nonStringKeyShape] at h
  | vInt i => simp [nonStringKeyShape] at h
  | vUInt n => simp [nonStringKeyShape] at h
  | _ => simp [serKeyEnc]

/-- C1: the claim says every keyed group at every nesting depth is emitted
in sorted member order, so permuting the members of any nested group
leaves the output bytes unchanged.  The code sorts only the top-level
group (`MapKeySorted`): `serialize_entry` renders nested values through
the plain streaming `Serializer`, whose `serialize_map` emits members in
input order.  Evaluating the code: the nested map inside `{"a": ...}`
keeps its input order `z` before `y`, and permuting the nested members
changes the output bytes. -/
theorem c1_nested_group_order_dependent :
    to_canonical_string (.vMap [(.vStr ['a'],
        .vMap [(.vStr ['z'], .vUInt 1), (.vStr ['y'], .vUInt 2)])]) =
      Except.ok [123, 34, 97, 34, 58, 123, 34, 122, 34, 58, 49, 44,
        34, 121, 34, 58, 50, 125, 125] ∧
    to_canonical_string (.vMap [(.vStr ['a'],
        .vMap [(.vStr ['z'], .vUInt 1), (.vStr ['y'], .vUInt 2)])]) ≠
      to_canonical_string (.vMap [(.vStr ['a'],
        .vMap [(.vStr ['y'], .vUInt 2), (.vStr ['z'], .vUInt 1)])]) := by
  constructor <;>
    simp [to_canonical_string, to_canonical_vec, to_canonical_writer, canEncode,
      canFragsMap, canFragsStruct, serEncode, serKeyEnc, serMapLoop, serSeqLoop,
      serFieldLoop, bytesLoop, sortedObj, sortFrags, insertFrag, lexLe, strLit,
      escContents, escClass, charEscape, utf8Str, utf8Char, natDecBytes, intDecBytes,
      Bind.bind, Except.bind, List.intersperse]

/-- C2: the claim (and the crate's own tests `check_canonical_float_value`
and `test_float_error`) say a float anywhere in the input fails the encode
with `InvalidInput` and produces no output.  Only a top-level float is
rejected by `CanonicalJson::serialize_f64`; a float appearing as a map
value is rendered by the plain `Serializer` inside
`MapKeySorted::serialize_entry`, which emits finite floats as numeric
literals and NaN/infinity as `null`.  Evaluating the code: `{"a": 1.01}`
encodes successfully to `{"a":1.01}` and `{"a": NaN}` to `{"a":null}`. -/
theorem c2_nested_float_emitted :
    to_canonical_string (.vMap [(.vStr ['a'], .vF64 (.finite ['1', '.', '0', '1']))]) =
      Except.ok [123, 34, 97, 34, 58, 49, 46, 48, 49, 125] ∧
    to_canonical_string (.vMap [(.vStr ['a'], .vF64 .nan)]) =
      Except.ok [123, 34, 97, 34, 58, 110, 117, 108, 108, 125] := by
  constructor <;>
    simp [to_canonical_string, to_canonical_vec, to_canonical_writer, canEncode,
      canFragsMap, canFragsStruct, serEncode, serKeyEnc, serMapLoop, serSeqLoop,
      serFieldLoop, bytesLoop, sortedObj, sortFrags, insertFrag, lexLe, strLit,
      escContents, escClass, charEscape, utf8Str, utf8Char, natDecBytes, intDecBytes,
      Bind.bind, Except.bind, List.intersperse]

/-- C3 counterexample: the claim says the "key must be a string" failure
is classified as `InvalidInput`.  For a boolean key the encode fails with
`Error::Custom("key must be a string")` (`Error::custom` builds the
`Custom` variant, src/map_key.rs line 24 and src/error.rs), not with
`InvalidInput`. -/
theorem c3_counterexample_bool_key_custom_error :
    to_canonical_string (.vMap [(.vBool true, .vUnit)]) =
      Except.error (Err.custom "key must be a string") ∧
    errIsInvalidInput (to_canonical_string (.vMap [(.vBool true, .vUnit)])) = false := by
  have h : to_canonical_string (.vMap [(.vBool true, .vUnit)]) =
      Except.error (Err.custom "key must be a string") := by
    simp [to_canonical_string, to_canonical_vec, to_canonical_writer, canEncode,
      canFragsMap, serKeyEnc, Bind.bind, Except.bind]
  exact ⟨h, by rw [h]; rfl⟩

/-- C3 amended: for every keyed group whose key has a shape that does not
produce a string, encoding fails with the explicit "key must be a string"
error, which the error taxonomy carries as the `Custom` kind (not
`InvalidInput`). -/
theorem c3_amended_non_string_key_custom_error (k w : Value)
    (rest : List (Value × Value)) (h : nonStringKeyShape k = true) :
    to_canonical_string (.vMap ((k, w) :: rest)) =
      Except.error (Err.custom "key must be a string") := by
  have hk := serKeyEnc_bad k h
  simp [to_canonical_string, to_canonical_vec, to_canonical_writer, canEncode,
    canFragsMap, hk, Bind.bind, Except.bind]

theorem c3_amended_witness :
    nonStringKeyShape (.vBool true) = true ∧
    to_canonical_string (.vMap [(.vBool true, .vUnit)]) =
      Except.error (Err.custom "key must be a string") :=
  ⟨by simp [nonStringKeyShape],
   c3_amended_non_string_key_custom_error (.vBool true) .vUnit []
     (by simp [nonStringKeyShape])⟩

/-- C4: the claim says an integer map key is rendered as its decimal form
framed in quotes, the member fragment starting with a `"` byte.
`MapKeySerializer::serialize_u64` and friends delegate straight to the
plain integer formatter without `begin_string`/`end_string`
(src/map_key.rs lines 70-121), so the key is emitted bare: `{1: true}`
encodes to `{1:true}`, whose second byte is the digit `1` (49), not a
quote (34). -/
theorem c4_integer_key_unquoted :
    to_canonical_string (.vMap [(.vUInt 1, .vBool true)]) =
      Except.ok [123, 49, 58, 116, 114, 117, 101, 125] := by
  simp [to_canonical_string, to_canonical_vec, to_canonical_writer, canEncode,
    canFragsMap, serEncode, serKeyEnc, sortedObj, sortFrags, insertFrag, lexLe,
    natDecBytes, Bind.bind, Except.bind, List.intersperse]

/-- C5: `to_canonical_vec` (and hence the string entry point) fails with
`SizeLimit` iff the fully encoded output is strictly longer than 65,535
bytes; an output of at most 65,535 bytes (in particular exactly 65,535)
is returned unchanged.  The check sits once in `to_canonical_vec`, after
`to_canonical_writer` has produced the whole vector. -/
theorem c5_size_limit_iff (v : Value) :
    (to_canonical_vec v = Except.error Err.sizeLimit ↔
      ∃ out, to_canonical_writer v = Except.ok out ∧ 65535 < out.length) ∧
    (∀ out, to_canonical_writer v = Except.ok out → out.length ≤ 65535 →
      to_canonical_vec v = Except.ok out) := by
  constructor
  · constructor
    · intro h
      unfold to_canonical_vec at h
      cases hc : to_canonical_writer v with
      | error e =>
          rw [hc] at h
          simp [Bind.bind, Except.bind] at h
          exact absurd (hc.trans (by rw [h])) (canEncode_ne_sizeLimit v)
      | ok w =>
          rw [hc] at h
          simp only [Bind.bind, Except.bind] at h
          split_ifs at h with hlen
          exact ⟨w, hc ▸ rfl, hlen⟩
    · rintro ⟨out, hok, hlen⟩
      unfold to_canonical_vec
      rw [hok]
      simp [Bind.bind, Except.bind, hlen]
  · intro out hok hle
    unfold to_canonical_vec
    rw [hok]
    simp [Bind.bind, Except.bind]
    omega

theorem c5_size_limit_witness :
    to_canonical_vec (.vBool true) = Except.ok [116, 114, 117, 101] :=
  (c5_size_limit_iff (.vBool true)).2 [116, 114, 117, 101]
    (by simp [to_canonical_writer, canEncode, serEncode]) (by simp)

/-- C6 counterexample: the claim says a newtype variant encodes as its
payload alone, with no enclosing object and no variant name.
`Serializer::serialize_newtype_variant` wraps the payload in a
single-member object keyed by the variant name: `A(1)` encodes to
`{"A":1}`, not to `1`. -/
theorem c6_counterexample_newtype_variant_wrapped :
    to_canonical_string (.vNewtypeVariant ['A'] (.vUInt 1)) =
      Except.ok [123, 34, 65, 34, 58, 49, 125] ∧
    to_canonical_string (.vNewtypeVariant ['A'] (.vUInt 1)) ≠
      to_canonical_string (.vUInt 1) := by
  constructor <;>
    simp [to_canonical_string, to_canonical_vec, to_canonical_writer, canEncode,
      serEncode, strLit, escContents, escClass, utf8Str, utf8Char, natDecBytes,
      Bind.bind, Except.bind]

/-- C6 amended: a newtype variant encodes as a single-member object whose
key is the variant name and whose value is the payload's encoding
(`{`, quoted variant name, `:`, payload bytes, `}`); it is the newtype
*struct* that encodes as the payload alone. -/
theorem c6_amended_newtype_variant_object (name : List Char) (v : Value)
    (out : List Nat) (h : serEncode v = Except.ok out) :
    canEncode (.vNewtypeVariant name v) =
      Except.ok ([123] ++ strLit name ++ [58] ++ out ++ [125]) := by
  have hc : canEncode (.vNewtypeVariant name v) = serEncode (.vNewtypeVariant name v) := by
    simp [canEncode]
  rw [hc]
  simp only [serEncode]
  rw [h]
  simp [Bind.bind, Except.bind]

theorem c6_amended_witness :
    serEncode (.vUInt 1) = Except.ok [49] ∧
    canEncode (.vNewtypeVariant ['A'] (.vUInt 1)) =
      Except.ok ([123] ++ strLit ['A'] ++ [58] ++ [49] ++ [125]) :=
  ⟨by simp [serEncode, natDecBytes],
   c6_amended_newtype_variant_object ['A'] (.vUInt 1) [49]
     (by simp [serEncode, natDecBytes])⟩

/-- C7: a string encodes as its UTF-8 content in quotes, with exactly the
per-byte escaping the claim describes (`claimEscapeByte`): bytes
U+0000–U+001F, `"` and `\` escaped, short escapes for backspace, tab,
line feed, form feed and carriage return, `\u00XX` for the remaining
controls, everything else (including all non-ASCII UTF-8 bytes) passed
through; and a printable-ASCII string with no quote, backslash or control
character is emitted as the quoted string unchanged. -/
theorem c7_string_escaping (s : List Char) :
    canEncode (.vStr s) =
      Except.ok ([34] ++ (utf8Str s).flatMap claimEscapeByte ++ [34]) ∧
    (PlainAscii s →
      canEncode (.vStr s) = Except.ok ([34] ++ s.map Char.toNat ++ [34])) := by
  have hc : canEncode (.vStr s) = Except.ok (strLit s) := by
    simp [canEncode, serEncode]
  constructor
  · rw [hc, strLit, escContents_eq_claim]
  · intro hp
    rw [hc, strLit, escContents_plainAscii hp]

theorem c7_string_escaping_witness :
    canEncode (.vStr ['h', 'i']) = Except.ok ([34] ++ ['h', 'i'].map Char.toNat ++ [34]) :=
  (c7_string_escaping ['h', 'i']).2 (by unfold PlainAscii; decide)

/-- C8: whenever the string entry point succeeds, the returned bytes are
valid UTF-8 and contain no whitespace outside string content: stripping
whitespace outside string literals (`stripWs`) leaves the bytes
unchanged.  (Finite float renderings carried in the input are assumed
well formed, `floatsWf`; they are produced by `ryu` in the source.) -/
theorem c8_output_utf8_no_ws (v : Value) (out : List Nat) (hw : floatsWf v = true)
    (h : to_canonical_string v = Except.ok out) :
    stripWs out = out ∧ Utf8Valid out := by
  unfold to_canonical_string to_canonical_vec at h
  obtain ⟨w, hcw, hif⟩ := bind_ok_inv _ _ _ h
  have hgb : GoodB w := canEncode_good v hw w hcw
  split_ifs at hif
  injection hif with hif
  subst hif
  exact ⟨by simp [stripWs, hgb.2], hgb.1⟩

theorem c8_output_utf8_no_ws_witness :
    floatsWf (.vStr ['h', 'i']) = true ∧
    to_canonical_string (.vStr ['h', 'i']) = Except.ok [34, 104, 105, 34] ∧
    (stripWs [34, 104, 105, 34] = [34, 104, 105, 34] ∧ Utf8Valid [34, 104, 105, 34]) :=
  ⟨by simp [floatsWf],
   by simp [to_canonical_string, to_canonical_vec, to_canonical_writer, canEncode,
        serEncode, strLit, escContents, escClass, utf8Str, utf8Char,
        Bind.bind, Except.bind],
   c8_output_utf8_no_ws (.vStr ['h', 'i']) [34, 104, 105, 34] (by simp [floatsWf])
     (by simp [to_canonical_string, to_canonical_vec, to_canonical_writer, canEncode,
        serEncode, strLit, escContents, escClass, utf8Str, utf8Char,
        Bind.bind, Except.bind])⟩

/-- C9: a byte sequence encodes as a JSON array (opening `[`, closing
`]`), one decimal-rendered unsigned 8-bit element per byte, in the
original byte order, joined by commas. -/
theorem c9_bytes_as_array (bs : List Nat) :
    canEncode (.vBytes bs) =
      Except.ok ([91] ++ (List.intersperse [44] (bs.map natDecBytes)).flatten ++ [93]) := by
  cases bs with
  | nil => simp [canEncode, serEncode, List.intersperse]
  | cons b r =>
      have hc : canEncode (.vBytes (b :: r)) =
          Except.ok ([91] ++ bytesLoop (b :: r) true ++ [93]) := by
        simp [canEncode, serEncode]
      rw [hc, List.map_cons, joinComma_eq_bytesLoop, bytesLoop]
      simp

/-- C10: the writer entry point `to_canonical_writer` performs no size
check: no input can make it return `SizeLimit`, and a 70,002-byte output
is produced successfully even though the vector/string entry point
rejects the same input with `SizeLimit`. -/
theorem c10_writer_no_size_limit :
    (∀ v, to_canonical_writer v ≠ Except.error Err.sizeLimit) ∧
    (∃ out, to_canonical_writer (.vStr (List.replicate 70000 'a')) = Except.ok out ∧
      65535 < out.length ∧
      to_canonical_vec (.vStr (List.replicate 70000 'a')) =
        Except.error Err.sizeLimit) := by
  have hvec : ∀ (v : Value) (out : List Nat), to_canonical_writer v = Except.ok out →
      65535 < out.length → to_canonical_vec v = Except.error Err.sizeLimit := by
    intro v out h hlen
    unfold to_canonical_vec
    rw [h]
    simp only [Bind.bind, Except.bind]
    rw [if_pos hlen]
  have hstr : ∀ s, canEncode (.vStr s) = Except.ok (strLit s) := by
    intro s
    simp [canEncode, serEncode]
  have hbig : to_canonical_writer (.vStr (List.replicate 70000 'a')) =
      Except.ok (strLit (List.replicate 70000 'a')) := by
    rw [to_canonical_writer, hstr]
  have hlen : ∀ n, (strLit (List.replicate n 'a')).length = n + 2 := by
    intro n
    rw [strLit, escContents_replicate_a]
    simp only [List.length_append, List.length_replicate, List.length_cons,
      List.length_nil]
    omega
  constructor
  · intro v
    exact canEncode_ne_sizeLimit v
  · have h70 := hlen 70000
    exact ⟨strLit (List.replicate 70000 'a'), hbig, by omega,
      hvec _ _ hbig (by omega)⟩

theorem c10_writer_no_size_limit_witness :
    to_canonical_writer .vUnit ≠ Except.error Err.sizeLimit :=
  c10_writer_no_size_limit.1 .vUnit
